import Mathlib

/-!
# Verification of the WeChat file organizer engine

A shallow embedding of `file_organizer.py` (class `WeChatFileOrganizer`):
the classification table and lookup (`get_file_category`), MD5-based duplicate
detection (`calculate_file_hash`, `is_duplicate_file`), unique-name generation
(`generate_unique_filename`), size formatting (`format_size`) and the
orchestration loop (`organize_files`).

Modelling conventions:
* A filesystem is an association list from paths (lists of components) to file
  data (an abstract byte content plus a byte size).  Copying prepends a binding;
  nothing is ever removed, matching `shutil.copy2` which only creates/overwrites
  its destination.
* MD5 is abstracted as an injective digest function `md5` on the abstract
  content; a failed read (the `except` branch of `calculate_file_hash`) yields
  the empty digest `""`, exactly as in the source.
* Transient I/O outcomes (a read failing while hashing, `shutil.copy2` raising,
  `Path.stat` raising) are an environment of booleans per path, mirroring which
  `try` blocks of the source can raise.
* Python float arithmetic in `format_size` is embedded exactly: the running
  value after `i` divisions by `1024.0` is the rational `n / 1024^i`, which is
  the exact value of the IEEE double for every size below `2^53` (division by a
  power of two is exact), and `"%.2f"` formatting is round-half-even to two
  decimals of that value, computed here over `Nat`.
* The scanner's enumeration `list(self.source_dir.rglob('*'))` yields every
  item under the source root — directories as well as regular files — and the
  scan loop reports each item through the progress callback while only the
  regular files are collected; the enumeration is modelled as a list of
  `(path, is_file)` pairs, with `scan_files` filtering the files.
* The progress callback is modelled by an event log `(current, total, label)`;
  an engine built without a callback (`progress_callback=None`) records no
  events, and a call of the form `self.progress_callback(...)` that is not
  guarded by `if self.progress_callback:` raises `TypeError` when no callback
  was supplied — `organize_files` therefore returns in an `Except`.
-/

/-! ## Decimal rendering of counters (the `f"{stem}_{counter}{suffix}"` piece) -/

/-- The decimal digit character for `d` (`d ≥ 9` clamps to `'9'`; only used
with `d < 10`). -/
def digitChar (d : Nat) : Char :=
  match d with
  | 0 => '0' | 1 => '1' | 2 => '2' | 3 => '3' | 4 => '4'
  | 5 => '5' | 6 => '6' | 7 => '7' | 8 => '8' | _ => '9'

/-- Decimal digits of `n`, most significant first, computed with explicit fuel
so that the definition is structural (and kernel-reducible). -/
def natDigitsAux : Nat → Nat → List Char
  | 0, _ => []
  | fuel + 1, n =>
    if n < 10 then [digitChar n]
    else natDigitsAux fuel (n / 10) ++ [digitChar (n % 10)]

/-- Decimal rendering of a natural number, as Python's `str`/f-string does. -/
def natStr (n : Nat) : String := ⟨natDigitsAux (n + 1) n⟩

/-- Reading decimal digits back; left inverse of `natDigitsAux`. -/
def natVal (l : List Char) : Nat := l.foldl (fun a c => 10 * a + (c.toNat - 48)) 0

theorem digitChar_toNat : ∀ d, d < 10 → (digitChar d).toNat = 48 + d := by decide

theorem digitChar_ne_dot (d : Nat) : digitChar d ≠ '.' := by
  unfold digitChar; split <;> decide

theorem natDigitsAux_ne_nil (fuel n : Nat) (h : n < fuel) :
    natDigitsAux fuel n ≠ [] := by
  match fuel with
  | f + 1 =>
    unfold natDigitsAux
    split
    · simp
    · simp

theorem natDigitsAux_not_dot (fuel n : Nat) :
    ∀ c ∈ natDigitsAux fuel n, c ≠ '.' := by
  induction fuel generalizing n with
  | zero => intro c hc; simp [natDigitsAux] at hc
  | succ f ih =>
    intro c hc
    unfold natDigitsAux at hc
    split at hc
    · simp at hc; subst hc; exact digitChar_ne_dot _
    · rcases List.mem_append.mp hc with h | h
      · exact ih _ _ h
      · simp at h; subst h; exact digitChar_ne_dot _

theorem natVal_append_digit (l : List Char) (c : Char) :
    natVal (l ++ [c]) = 10 * natVal l + (c.toNat - 48) := by
  simp [natVal, List.foldl_append]

theorem natVal_natDigitsAux (fuel n : Nat) (h : n < fuel) :
    natVal (natDigitsAux fuel n) = n := by
  induction fuel generalizing n with
  | zero => omega
  | succ f ih =>
    unfold natDigitsAux
    split
    · rename_i h10
      simp [natVal]
      rw [digitChar_toNat n h10]
      omega
    · rename_i h10
      rw [natVal_append_digit, ih (n / 10) (by omega)]
      rw [digitChar_toNat (n % 10) (by omega)]
      omega

theorem natStr_injective : Function.Injective natStr := by
  intro m n h
  have hd : natDigitsAux (m + 1) m = natDigitsAux (n + 1) n := congrArg String.data h
  have h1 := natVal_natDigitsAux (m + 1) m (by omega)
  have h2 := natVal_natDigitsAux (n + 1) n (by omega)
  rw [hd] at h1
  omega

theorem natStr_ne_nil (n : Nat) : (natStr n).data ≠ [] :=
  natDigitsAux_ne_nil (n + 1) n (by omega)

theorem natStr_not_dot (n : Nat) : ∀ c ∈ (natStr n).data, c ≠ '.' :=
  natDigitsAux_not_dot (n + 1) n

/-! ## Python `PurePath.stem` / `PurePath.suffix`

CPython computes both from `i = name.rfind('.')` guarded by
`0 < i < len(name) - 1`.  `lastDotIdx` is `rfind('.')` (as an `Option`). -/

/-- Index of the last `'.'` in a character list, if any (Python `rfind('.')`). -/
def lastDotIdx : List Char → Option Nat
  | [] => none
  | c :: rest =>
    match lastDotIdx rest with
    | some i => some (i + 1)
    | none => if c = '.' then some 0 else none

/-- Python `PurePath(name).suffix`: the extension including the leading dot,
empty when the last dot is leading, trailing, or absent. -/
def pySuffix (name : String) : String :=
  match lastDotIdx name.data with
  | some i => if 0 < i ∧ i < name.data.length - 1 then ⟨name.data.drop i⟩ else ""
  | none => ""

/-- Python `PurePath(name).stem`: the name with `pySuffix` removed. -/
def pyStem (name : String) : String :=
  match lastDotIdx name.data with
  | some i => if 0 < i ∧ i < name.data.length - 1 then ⟨name.data.take i⟩ else name
  | none => name

theorem pyStem_append_pySuffix (name : String) :
    pyStem name ++ pySuffix name = name := by
  unfold pyStem pySuffix
  cases h : lastDotIdx name.data with
  | none =>
    apply String.ext
    simp [String.data_append]
  | some i =>
    by_cases hg : 0 < i ∧ i < name.data.length - 1
    · simp only [hg, if_true]
      apply String.ext
      simp [String.data_append]
    · simp only [hg, if_false]
      apply String.ext
      simp [String.data_append]

/-! ## Classification table and `get_file_category` -/

/-- Python `str.lower()` restricted to ASCII, which covers every string the
classification code compares (all table entries are ASCII). -/
def lowerChar (c : Char) : Char :=
  if 'A' ≤ c ∧ c ≤ 'Z' then Char.ofNat (c.toNat + 32) else c

/-- Lower-casing a string character by character. -/
def lowerStr (s : String) : String := ⟨s.data.map lowerChar⟩

/-- The `self.file_categories` dictionary, in insertion order. -/
def file_categories : List (String × List String) :=
  [("图片", [".jpg", ".jpeg", ".png", ".gif", ".bmp", ".webp", ".svg", ".ico", ".tiff"]),
   ("视频", [".mp4", ".avi", ".mov", ".wmv", ".flv", ".mkv", ".webm", ".m4v", ".3gp"]),
   ("音频", [".mp3", ".wav", ".flac", ".aac", ".ogg", ".wma", ".m4a", ".amr"]),
   ("文档", [".pdf", ".doc", ".docx", ".txt", ".rtf", ".xls", ".xlsx", ".ppt", ".pptx"]),
   ("压缩包", [".zip", ".rar", ".7z", ".tar", ".gz", ".bz2"]),
   ("程序", [".exe", ".msi", ".dmg", ".pkg", ".deb", ".rpm", ".apk"]),
   ("其他", [])]

/-- The `for category, extensions in self.file_categories.items()` loop of
`get_file_category`: first category other than `其他` whose extension list
contains the suffix, with fallback `其他` after the loop. -/
def lookupCat : List (String × List String) → String → String
  | [], _ => "其他"
  | ce :: rest, s => if ce.1 ≠ "其他" ∧ s ∈ ce.2 then ce.1 else lookupCat rest s

/-- `WeChatFileOrganizer.get_file_category`: classify by the lower-cased
`Path.suffix` of the file's name. -/
def get_file_category (name : String) : String :=
  lookupCat file_categories (lowerStr (pySuffix name))

theorem lookupCat_not_mem (tbl : List (String × List String)) (s : String)
    (h : ∀ ce ∈ tbl, s ∉ ce.2) : lookupCat tbl s = "其他" := by
  induction tbl with
  | nil => rfl
  | cons ce rest ih =>
    have hs : s ∉ ce.2 := h ce (by simp)
    simp only [lookupCat, hs, and_false, if_false]
    exact ih fun ce' hce' => h ce' (by simp [hce'])

/-! ## The filesystem model -/

/-- A path: a list of components (the last one is the file's name). -/
abbrev FPath := List String

/-- The data of one file: an abstract byte content and a byte size.
`shutil.copy2` copies both. -/
structure FileData where
  content : Nat
  size : Nat
deriving DecidableEq, Repr

/-- A filesystem: an association list from paths to file data.  Writes
prepend; the engine never removes a binding (it is copy-only). -/
abbrev FS := List (FPath × FileData)

/-- `Path.exists()`. -/
def pexists : FS → FPath → Bool
  | [], _ => false
  | e :: rest, p => if e.1 = p then true else pexists rest p

/-- Opening and reading a file (`none` when the path is not bound). -/
def readFS : FS → FPath → Option FileData
  | [], _ => none
  | e :: rest, p => if e.1 = p then some e.2 else readFS rest p

theorem pexists_cons (e : FPath × FileData) (fs : FS) (p : FPath) :
    pexists (e :: fs) p = (decide (e.1 = p) || pexists fs p) := by
  by_cases h : e.1 = p <;> simp [pexists, h]

theorem pexists_eq_false_iff (fs : FS) (p : FPath) :
    pexists fs p = false ↔ readFS fs p = none := by
  induction fs with
  | nil => simp [pexists, readFS]
  | cons e rest ih =>
    by_cases h : e.1 = p <;> simp [pexists, readFS, h, ih]

theorem pexists_of_readFS_some (fs : FS) (p : FPath) (d : FileData)
    (h : readFS fs p = some d) : pexists fs p = true := by
  by_cases hp : pexists fs p = true
  · exact hp
  · rw [Bool.not_eq_true] at hp
    rw [(pexists_eq_false_iff fs p).mp hp] at h
    cases h

theorem readFS_some_of_pexists (fs : FS) (p : FPath)
    (h : pexists fs p = true) : ∃ d, readFS fs p = some d := by
  cases hr : readFS fs p with
  | none =>
    rw [← pexists_eq_false_iff] at hr
    rw [h] at hr; cases hr
  | some d => exact ⟨d, rfl⟩

/-- A write at a fresh path does not disturb any existing binding. -/
theorem readFS_fresh_write (fs : FS) (q : FPath) (d : FileData)
    (hq : pexists fs q = false) (p : FPath) (d' : FileData)
    (hp : readFS fs p = some d') : readFS ((q, d) :: fs) p = some d' := by
  have hqp : q ≠ p := by
    intro h; subst h
    rw [(pexists_eq_false_iff fs q).mp hq] at hp; cases hp
  simpa [readFS, hqp] using hp

theorem pexists_fresh_write (fs : FS) (q : FPath) (d : FileData)
    (p : FPath) (hqp : q ≠ p) : pexists ((q, d) :: fs) p = pexists fs p := by
  simp [pexists, hqp]

theorem mem_keys_of_pexists (fs : FS) (p : FPath)
    (h : pexists fs p = true) : p ∈ fs.map Prod.fst := by
  induction fs with
  | nil => cases h
  | cons e rest ih =>
    by_cases he : e.1 = p
    · rw [List.map_cons, he]
      exact List.mem_cons_self _ _
    · simp only [pexists, he, if_false] at h
      rw [List.map_cons]
      exact List.mem_cons_of_mem _ (ih h)

/-! ## Hashing and duplicate detection -/

/-- The transient-I/O environment: which paths raise inside the `try` of
`calculate_file_hash`, which raise from `shutil.copy2`, and which raise from
`Path.stat` (read after the copy, for the statistics). -/
structure IOEnv where
  readFails : FPath → Bool
  copyFails : FPath → Bool
  statFails : FPath → Bool

/-- The MD5 hex digest, abstracted as an injective, never-empty rendering of
the abstract content. -/
def md5 (content : Nat) : String := "h" ++ natStr content

theorem md5_ne_empty (content : Nat) : md5 content ≠ "" := by
  intro h
  have : (md5 content).data = [] := congrArg String.data h
  simp [md5, String.data_append] at this

theorem md5_injective : Function.Injective md5 := by
  intro a b h
  have hd : ('h' :: (natStr a).data) = ('h' :: (natStr b).data) := by
    have := congrArg String.data h
    simpa [md5, String.data_append] using this
  exact natStr_injective (String.ext (List.cons_injective hd))

/-- `WeChatFileOrganizer.calculate_file_hash`: the MD5 digest of the file, or
`""` when the read raises (the `except` branch). -/
def calculate_file_hash (env : IOEnv) (fs : FS) (file_path : FPath) : String :=
  if env.readFails file_path then ""
  else
    match readFS fs file_path with
    | some d => md5 d.content
    | none => ""

/-- `WeChatFileOrganizer.is_duplicate_file`: fast `false` when the target does
not exist, otherwise compare digests, never treating `""` as a match. -/
def is_duplicate_file (env : IOEnv) (fs : FS) (source_file target_file : FPath) : Bool :=
  if pexists fs target_file = false then false
  else
    let source_hash := calculate_file_hash env fs source_file
    let target_hash := calculate_file_hash env fs target_file
    decide (source_hash = target_hash ∧ source_hash ≠ "")

/-! ## `generate_unique_filename` -/

/-- The `while target_path.exists():` loop of `generate_unique_filename`.
`counter` and `current` are the loop variables; the fuel argument only bounds
the iteration count and is chosen large enough that it never runs out
(`fs.length + 1` candidates cannot all be bound in `fs`). -/
def genLoop (fs : FS) (target_dir : FPath) (stem suffix : String) :
    Nat → String → Nat → FPath
  | _, current, 0 => target_dir ++ [current]
  | counter, current, fuel + 1 =>
    if pexists fs (target_dir ++ [current]) = true then
      genLoop fs target_dir stem suffix (counter + 1)
        (stem ++ "_" ++ natStr counter ++ suffix) fuel
    else target_dir ++ [current]

/-- `WeChatFileOrganizer.generate_unique_filename`: starting from the literal
`target_dir / filename`, append `_1`, `_2`, … before the extension until a
free slot is found. -/
def generate_unique_filename (fs : FS) (target_dir : FPath) (filename : String) : FPath :=
  genLoop fs target_dir (pyStem filename) (pySuffix filename) 1 filename (fs.length + 1)

/-- The stream of candidate names the loop walks through, starting from the
loop state `(counter, current)`. -/
def streamC (stem suffix : String) (counter : Nat) (current : String) : Nat → String
  | 0 => current
  | j + 1 => stem ++ "_" ++ natStr (counter + j) ++ suffix

theorem streamC_shift (stem suffix : String) (c : Nat) (cur : String) (j : Nat) :
    streamC stem suffix c cur (j + 1) =
      streamC stem suffix (c + 1) (stem ++ "_" ++ natStr c ++ suffix) j := by
  cases j with
  | zero => simp [streamC]
  | succ k =>
    show stem ++ "_" ++ natStr (c + (k + 1)) ++ suffix = _
    have h : c + (k + 1) = (c + 1) + k := by omega
    rw [h]; rfl

/-- Running the candidate loop when some candidate within the fuel budget is
free: the loop returns the first free candidate. -/
theorem genLoop_stream (fs : FS) (dir : FPath) (stem suffix : String) :
    ∀ (fuel counter : Nat) (current : String),
      (∃ j, j < fuel ∧
        pexists fs (dir ++ [streamC stem suffix counter current j]) = false) →
      ∃ j, genLoop fs dir stem suffix counter current fuel =
             dir ++ [streamC stem suffix counter current j] ∧
           pexists fs (dir ++ [streamC stem suffix counter current j]) = false ∧
           ∀ m, m < j →
             pexists fs (dir ++ [streamC stem suffix counter current m]) = true := by
  intro fuel
  induction fuel with
  | zero =>
    rintro c cur ⟨j, hj, -⟩
    omega
  | succ f ih =>
    intro c cur hex
    by_cases hcur : pexists fs (dir ++ [cur]) = true
    · obtain ⟨j, hj, hfree⟩ := hex
      have hj0 : j ≠ 0 := by
        intro h; subst h
        simp only [streamC] at hfree
        rw [hcur] at hfree; cases hfree
      obtain ⟨j', rfl⟩ : ∃ j', j = j' + 1 := ⟨j - 1, by omega⟩
      rw [streamC_shift] at hfree
      obtain ⟨k, hk1, hk2, hk3⟩ :=
        ih (c + 1) (stem ++ "_" ++ natStr c ++ suffix) ⟨j', by omega, hfree⟩
      refine ⟨k + 1, ?_, ?_, ?_⟩
      · rw [streamC_shift]
        simpa [genLoop, hcur] using hk1
      · rw [streamC_shift]; exact hk2
      · intro m hm
        match m with
        | 0 => simpa [streamC] using hcur
        | m' + 1 =>
          rw [streamC_shift]
          exact hk3 m' (by omega)
    · refine ⟨0, ?_, ?_, ?_⟩
      · simp [genLoop, hcur, streamC]
      · simp only [streamC]
        exact Bool.not_eq_true _ |>.mp hcur
      · intro m hm; omega

theorem append_natStr_cancel (s t : String) (m n : Nat)
    (h : s ++ "_" ++ natStr m ++ t = s ++ "_" ++ natStr n ++ t) : m = n := by
  have hd := congrArg String.data h
  simp only [String.data_append, List.append_assoc, List.singleton_append] at hd
  have h1 := List.append_cancel_left hd
  have h2 : (natStr m).data ++ t.data = (natStr n).data ++ t.data :=
    List.cons_injective h1
  exact natStr_injective (String.ext (List.append_cancel_right h2))

theorem streamC_length (filename : String) (j : Nat) :
    (streamC (pyStem filename) (pySuffix filename) 1 filename (j + 1)).length =
      filename.length + 1 + (natStr (1 + j)).length := by
  have hs := congrArg String.length (pyStem_append_pySuffix filename)
  rw [String.length_append] at hs
  show (pyStem filename ++ "_" ++ natStr (1 + j) ++ pySuffix filename).length = _
  simp only [String.length_append]
  have hu : ("_" : String).length = 1 := rfl
  omega

theorem streamC_injective (filename : String) :
    Function.Injective (streamC (pyStem filename) (pySuffix filename) 1 filename) := by
  have hlen : ∀ j, filename.length <
      (streamC (pyStem filename) (pySuffix filename) 1 filename (j + 1)).length := by
    intro j
    rw [streamC_length]
    have h1 : 0 < (natStr (1 + j)).length := List.length_pos.mpr (natStr_ne_nil (1 + j))
    omega
  intro a b h
  match a, b with
  | 0, 0 => rfl
  | 0, b + 1 =>
    exfalso
    have := hlen b
    rw [← h] at this
    simp only [streamC] at this
    omega
  | a + 1, 0 =>
    exfalso
    have := hlen a
    rw [h] at this
    simp only [streamC] at this
    omega
  | a + 1, b + 1 =>
    have h' : pyStem filename ++ "_" ++ natStr (1 + a) ++ pySuffix filename =
        pyStem filename ++ "_" ++ natStr (1 + b) ++ pySuffix filename := h
    have := append_natStr_cancel _ _ _ _ h'
    omega

/-- Pigeonhole: among the first `fs.length + 1` candidates, one is free. -/
theorem exists_free_in_stream (fs : FS) (dir : FPath) (filename : String) :
    ∃ j, j ≤ fs.length ∧
      pexists fs (dir ++ [streamC (pyStem filename) (pySuffix filename) 1 filename j]) =
        false := by
  by_contra hno
  push_neg at hno
  have hall : ∀ j, j ≤ fs.length →
      pexists fs (dir ++ [streamC (pyStem filename) (pySuffix filename) 1 filename j]) =
        true := by
    intro j hj
    have := hno j hj
    cases h : pexists fs (dir ++ [streamC (pyStem filename) (pySuffix filename) 1 filename j])
    · exact absurd h this
    · rfl
  set g : Nat → FPath :=
    fun j => dir ++ [streamC (pyStem filename) (pySuffix filename) 1 filename j] with hg
  have hginj : Function.Injective g := by
    intro a b hab
    have h1 : [streamC (pyStem filename) (pySuffix filename) 1 filename a] =
        [streamC (pyStem filename) (pySuffix filename) 1 filename b] :=
      List.append_cancel_left hab
    exact streamC_injective filename (List.singleton_injective h1)
  set l : List FPath := (List.range (fs.length + 1)).map g with hl
  have hnodup : l.Nodup := (List.nodup_range _).map hginj
  have hsub : ∀ x ∈ l, x ∈ fs.map Prod.fst := by
    intro x hx
    rw [hl] at hx
    obtain ⟨j, hj, rfl⟩ := List.mem_map.mp hx
    rw [List.mem_range] at hj
    exact mem_keys_of_pexists fs _ (hall j (by omega))
  have hcard1 : l.toFinset.card = fs.length + 1 := by
    rw [List.toFinset_card_of_nodup hnodup, hl, List.length_map, List.length_range]
  have hcard2 : l.toFinset.card ≤ (fs.map Prod.fst).length := by
    calc l.toFinset.card ≤ (fs.map Prod.fst).toFinset.card := by
          apply Finset.card_le_card
          intro x hx
          exact List.mem_toFinset.mpr (hsub x (List.mem_toFinset.mp hx))
      _ ≤ (fs.map Prod.fst).length := List.toFinset_card_le _
  rw [List.length_map] at hcard2
  omega

/-- Master specification of `generate_unique_filename`: the result is the
first free candidate of the stream `filename, stem_1suffix, stem_2suffix, …`. -/
theorem generate_unique_spec (fs : FS) (dir : FPath) (filename : String) :
    ∃ j, generate_unique_filename fs dir filename =
           dir ++ [streamC (pyStem filename) (pySuffix filename) 1 filename j] ∧
         pexists fs (dir ++ [streamC (pyStem filename) (pySuffix filename) 1 filename j]) =
           false ∧
         ∀ m, m < j →
           pexists fs (dir ++ [streamC (pyStem filename) (pySuffix filename) 1 filename m]) =
             true := by
  obtain ⟨j, hj, hfree⟩ := exists_free_in_stream fs dir filename
  exact genLoop_stream fs dir _ _ (fs.length + 1) 1 filename ⟨j, by omega, hfree⟩

/-- The path returned by `generate_unique_filename` never already exists. -/
theorem generate_unique_free (fs : FS) (dir : FPath) (filename : String) :
    pexists fs (generate_unique_filename fs dir filename) = false := by
  obtain ⟨j, h1, h2, -⟩ := generate_unique_spec fs dir filename
  rw [h1]; exact h2

/-- When the literal desired path is free the function returns it unchanged. -/
theorem generate_unique_literal (fs : FS) (dir : FPath) (filename : String)
    (h : pexists fs (dir ++ [filename]) = false) :
    generate_unique_filename fs dir filename = dir ++ [filename] := by
  unfold generate_unique_filename
  simp [genLoop, h]

/-! ## How appending affects `pySuffix` (extension preservation) -/

theorem pySuffix_of_idx (name : String) (i : Nat)
    (hd : lastDotIdx name.data = some i) (hg : 0 < i ∧ i < name.data.length - 1) :
    pySuffix name = ⟨name.data.drop i⟩ := by
  unfold pySuffix
  rw [hd]
  show (if 0 < i ∧ i < name.data.length - 1 then
      (⟨name.data.drop i⟩ : String) else "") = _
  rw [if_pos hg]

theorem pySuffix_of_idx_bad (name : String) (i : Nat)
    (hd : lastDotIdx name.data = some i) (hg : ¬(0 < i ∧ i < name.data.length - 1)) :
    pySuffix name = "" := by
  unfold pySuffix
  rw [hd]
  show (if 0 < i ∧ i < name.data.length - 1 then
      (⟨name.data.drop i⟩ : String) else "") = _
  rw [if_neg hg]

theorem pySuffix_of_none (name : String) (hd : lastDotIdx name.data = none) :
    pySuffix name = "" := by
  unfold pySuffix
  rw [hd]

theorem pyStem_of_idx_bad (name : String) (i : Nat)
    (hd : lastDotIdx name.data = some i) (hg : ¬(0 < i ∧ i < name.data.length - 1)) :
    pyStem name = name := by
  unfold pyStem
  rw [hd]
  show (if 0 < i ∧ i < name.data.length - 1 then
      (⟨name.data.take i⟩ : String) else name) = _
  rw [if_neg hg]

theorem pyStem_of_none (name : String) (hd : lastDotIdx name.data = none) :
    pyStem name = name := by
  unfold pyStem
  rw [hd]

theorem lastDotIdx_append (a b : List Char) :
    lastDotIdx (a ++ b) =
      match lastDotIdx b with
      | some j => some (a.length + j)
      | none => lastDotIdx a := by
  induction a with
  | nil =>
    cases h : lastDotIdx b with
    | none => simp [h, lastDotIdx]
    | some j => simp [h]
  | cons c rest ih =>
    show (match lastDotIdx (rest ++ b) with
          | some i => some (i + 1)
          | none => if c = '.' then some 0 else none) = _
    rw [ih]
    cases h : lastDotIdx b with
    | none => rfl
    | some j =>
      show some (rest.length + j + 1) = some ((c :: rest).length + j)
      rw [List.length_cons]
      congr 1
      omega

theorem lastDotIdx_eq_none (l : List Char) (h : '.' ∉ l) : lastDotIdx l = none := by
  induction l with
  | nil => rfl
  | cons c rest ih =>
    have hc : c ≠ '.' := fun hc => h (by simp [hc])
    have hr : lastDotIdx rest = none := ih fun hm => h (by simp [hm])
    simp [lastDotIdx, hr, hc]

theorem not_dot_of_lastDotIdx_none (l : List Char) (h : lastDotIdx l = none) :
    '.' ∉ l := by
  induction l with
  | nil => simp
  | cons c rest ih =>
    simp only [lastDotIdx] at h
    cases h2 : lastDotIdx rest with
    | some j => rw [h2] at h; cases h
    | none =>
      rw [h2] at h
      by_cases hc : c = '.'
      · rw [if_pos hc] at h; cases h
      · intro hm
        rcases List.mem_cons.mp hm with h3 | h3
        · exact hc h3.symm
        · exact ih h2 h3

theorem lastDotIdx_drop (l : List Char) :
    ∀ i, lastDotIdx l = some i → ∃ t, l.drop i = '.' :: t ∧ '.' ∉ t := by
  induction l with
  | nil => intro i h; cases h
  | cons c rest ih =>
    intro i h
    simp only [lastDotIdx] at h
    cases h2 : lastDotIdx rest with
    | some j =>
      rw [h2] at h
      injection h with h
      subst h
      obtain ⟨t, ht1, ht2⟩ := ih j h2
      exact ⟨t, by simpa using ht1, ht2⟩
    | none =>
      rw [h2] at h
      by_cases hc : c = '.'
      · rw [if_pos hc] at h
        injection h with h
        subst h
        exact ⟨rest, by simp [hc], not_dot_of_lastDotIdx_none rest h2⟩
      · rw [if_neg hc] at h; cases h

/-- Structure of a nonempty `pySuffix`: the characters from the last dot on,
with at least one non-dot character after the dot. -/
theorem pySuffix_spec_nonempty (name : String) (h : pySuffix name ≠ "") :
    ∃ i t, lastDotIdx name.data = some i ∧ 0 < i ∧ i < name.data.length - 1 ∧
      (pySuffix name).data = '.' :: t ∧ '.' ∉ t ∧ t ≠ [] ∧
      name.data.drop i = '.' :: t := by
  cases hd : lastDotIdx name.data with
  | none => exact absurd (pySuffix_of_none name hd) h
  | some i =>
    by_cases hg : 0 < i ∧ i < name.data.length - 1
    · obtain ⟨t, ht1, ht2⟩ := lastDotIdx_drop name.data i hd
      have hlen : (name.data.drop i).length = name.data.length - i :=
        List.length_drop i name.data
      rw [ht1] at hlen
      have htne : t ≠ [] := by
        intro h0
        subst h0
        simp only [List.length_cons, List.length_nil] at hlen
        omega
      refine ⟨i, t, rfl, hg.1, hg.2, ?_, ht2, htne, ht1⟩
      rw [pySuffix_of_idx name i hd hg]
      exact ht1
    · exact absurd (pySuffix_of_idx_bad name i hd hg) h

theorem pyStem_of_pySuffix_empty (name : String) (h : pySuffix name = "") :
    pyStem name = name := by
  cases hd : lastDotIdx name.data with
  | none => exact pyStem_of_none name hd
  | some i =>
    by_cases hg : 0 < i ∧ i < name.data.length - 1
    · exfalso
      rw [pySuffix_of_idx name i hd hg] at h
      have hlen := congrArg (fun s : String => s.data.length) h
      simp only [List.length_drop] at hlen
      have h0 : name.data.length - i = 0 := hlen
      omega
    · exact pyStem_of_idx_bad name i hd hg

/-- The candidate name `stem_nsuffix` keeps the suffix of the original name,
provided the name has a proper extension or no internal dot (this is exactly
where trailing-dot names like `"a."` fall outside the guarantee). -/
theorem pySuffix_candidate (name : String) (n : Nat)
    (hprov : pySuffix name ≠ "" ∨ ∀ i, lastDotIdx name.data = some i → i = 0) :
    pySuffix (pyStem name ++ "_" ++ natStr n ++ pySuffix name) = pySuffix name := by
  by_cases h : pySuffix name = ""
  · have hp : ∀ i, lastDotIdx name.data = some i → i = 0 := by
      rcases hprov with h1 | h2
      · exact absurd h h1
      · exact h2
    rw [h, pyStem_of_pySuffix_empty name h]
    have hdata : (name ++ "_" ++ natStr n ++ "").data =
        name.data ++ '_' :: (natStr n).data := by
      simp [String.data_append]
    have hdig : lastDotIdx ('_' :: (natStr n).data) = none := by
      apply lastDotIdx_eq_none
      intro hmem
      rcases List.mem_cons.mp hmem with h3 | h3
      · cases h3
      · exact natStr_not_dot n _ h3 rfl
    have hcand : lastDotIdx (name ++ "_" ++ natStr n ++ "").data =
        lastDotIdx name.data := by
      rw [hdata, lastDotIdx_append, hdig]
    cases hd : lastDotIdx name.data with
    | none =>
      rw [hd] at hcand
      exact pySuffix_of_none _ hcand
    | some i =>
      have h0 := hp i hd
      subst h0
      rw [hd] at hcand
      apply pySuffix_of_idx_bad _ 0 hcand
      simp
  · obtain ⟨i, t, hd, hi0, hilen, hsd, hnd, htne, hdrop⟩ := pySuffix_spec_nonempty name h
    have hdata : (pyStem name ++ "_" ++ natStr n ++ pySuffix name).data =
        ((pyStem name).data ++ '_' :: (natStr n).data) ++ ('.' :: t) := by
      simp [String.data_append, hsd]
    have hdot : lastDotIdx ('.' :: t) = some 0 := by
      simp [lastDotIdx, lastDotIdx_eq_none t hnd]
    have hcand : lastDotIdx (pyStem name ++ "_" ++ natStr n ++ pySuffix name).data =
        some (((pyStem name).data ++ '_' :: (natStr n).data).length + 0) := by
      rw [hdata, lastDotIdx_append, hdot]
    have hlen : (pyStem name ++ "_" ++ natStr n ++ pySuffix name).data.length =
        ((pyStem name).data ++ '_' :: (natStr n).data).length + t.length + 1 := by
      rw [hdata]
      simp only [List.length_append, List.length_cons]
      omega
    have htpos : 0 < t.length := List.length_pos.mpr htne
    have hApos : 0 < ((pyStem name).data ++ '_' :: (natStr n).data).length := by
      simp [List.length_append]
    have hg : 0 < ((pyStem name).data ++ '_' :: (natStr n).data).length + 0 ∧
        ((pyStem name).data ++ '_' :: (natStr n).data).length + 0 <
          (pyStem name ++ "_" ++ natStr n ++ pySuffix name).data.length - 1 := by
      constructor
      · omega
      · rw [hlen]; omega
    rw [pySuffix_of_idx _ _ hcand hg]
    apply String.ext
    show (pyStem name ++ "_" ++ natStr n ++ pySuffix name).data.drop
        (((pyStem name).data ++ '_' :: (natStr n).data).length + 0) = (pySuffix name).data
    rw [hdata, Nat.add_zero, List.drop_left, hsd]

/-! ## `format_size` -/

/-- `size_names = ["B", "KB", "MB", "GB", "TB"]`. -/
def size_names : List String := ["B", "KB", "MB", "GB", "TB"]

/-- The `while size_bytes >= 1024.0 and i < len(size_names) - 1` loop.  The
running float value after `i` divisions is exactly `n / 1024^i` (division by a
power of two is exact for IEEE doubles, and `n` is exact below `2^53`), so the
condition `size_bytes >= 1024.0` is `1024^(i+1) ≤ n`; the fuel starts at
`len(size_names) - 1 = 4` and encodes `i < 4`.  Returns the final unit index. -/
def scaleLoop (n : Nat) : Nat → Nat → Nat
  | i, 0 => i
  | i, fuel + 1 => if 1024 ^ (i + 1) ≤ n then scaleLoop n (i + 1) fuel else i

/-- Round-half-even of `100 * n / 1024^i`: the hundredths shown by `"%.2f"`
applied to the exact double `n / 1024^i`. -/
def round2c (n i : Nat) : Nat :=
  if 2 * (100 * n % 1024 ^ i) < 1024 ^ i then 100 * n / 1024 ^ i
  else if 1024 ^ i < 2 * (100 * n % 1024 ^ i) then 100 * n / 1024 ^ i + 1
  else if (100 * n / 1024 ^ i) % 2 = 0 then 100 * n / 1024 ^ i
  else 100 * n / 1024 ^ i + 1

/-- Rendering `"%.2f"` from hundredths: integral part, dot, two digits. -/
def format2c (c : Nat) : String :=
  natStr (c / 100) ++ "." ++
    (if c % 100 < 10 then "0" ++ natStr (c % 100) else natStr (c % 100))

/-- `WeChatFileOrganizer.format_size`. -/
def format_size (size_bytes : Nat) : String :=
  if size_bytes = 0 then "0 B"
  else
    let i := scaleLoop size_bytes 0 4
    format2c (round2c size_bytes i) ++ " " ++ size_names.getD i ""

/-- The unit index chosen by the loop: within the fuel budget, the magnitude
was divided down below 1024 unless the unit list ran out. -/
theorem scaleLoop_spec (n : Nat) :
    ∀ (fuel i : Nat), 1024 ^ i ≤ n →
      i ≤ scaleLoop n i fuel ∧ scaleLoop n i fuel ≤ i + fuel ∧
      1024 ^ scaleLoop n i fuel ≤ n ∧
      (n < 1024 ^ (scaleLoop n i fuel + 1) ∨ scaleLoop n i fuel = i + fuel) := by
  intro fuel
  induction fuel with
  | zero =>
    intro i hi
    simp only [scaleLoop]
    exact ⟨Nat.le_refl i, by omega, hi, Or.inr (by omega)⟩
  | succ f ih =>
    intro i hi
    by_cases h : 1024 ^ (i + 1) ≤ n
    · obtain ⟨a, b, c, d⟩ := ih (i + 1) h
      simp only [scaleLoop, if_pos h]
      refine ⟨by omega, by omega, c, ?_⟩
      rcases d with d | d
      · exact Or.inl d
      · exact Or.inr (by omega)
    · simp only [scaleLoop, if_neg h]
      exact ⟨Nat.le_refl i, by omega, hi, Or.inl (by omega)⟩

/-- `round2c n i` is within half a hundredth of the exact value: in cleared
form, `|round2c n i - 100·n/1024^i| ≤ 1/2`. -/
theorem round2c_half (n i : Nat) :
    2 * round2c n i * 1024 ^ i ≤ 200 * n + 1024 ^ i ∧
    200 * n ≤ 2 * round2c n i * 1024 ^ i + 1024 ^ i := by
  unfold round2c
  have hD : 0 < 1024 ^ i := Nat.pos_pow_of_pos i (by norm_num)
  have key : 1024 ^ i * (100 * n / 1024 ^ i) + 100 * n % 1024 ^ i = 100 * n :=
    Nat.div_add_mod (100 * n) (1024 ^ i)
  have hr : 100 * n % 1024 ^ i < 1024 ^ i := Nat.mod_lt _ hD
  have hq : 2 * (100 * n / 1024 ^ i) * 1024 ^ i =
      2 * (1024 ^ i * (100 * n / 1024 ^ i)) := by ring
  have hq1 : 2 * (100 * n / 1024 ^ i + 1) * 1024 ^ i =
      2 * (1024 ^ i * (100 * n / 1024 ^ i)) + 2 * 1024 ^ i := by ring
  split_ifs with h1 h2 h3
  · rw [hq]; omega
  · rw [hq1]; omega
  · rw [hq]; omega
  · rw [hq1]; omega

/-! ## The orchestration loop `organize_files` -/

/-- The last component of a path — Python `Path.name`. -/
def baseName (p : FPath) : String := p.getLastD ""

/-- The per-run mutable state of the engine: the evolving filesystem plus
`self.processed_files`, `self.skipped_files`, the `category_stats` dictionary,
`total_size`, and the log of progress-callback invocations. -/
structure RunState where
  fs : FS
  processed : List FPath
  skipped : List FPath
  category_stats : List (String × Nat)
  total_size : Nat
  events : List (Nat × Nat × String)
deriving DecidableEq, Repr

/-- `category_stats[category] += 1`. -/
def bumpStat (stats : List (String × Nat)) (c : String) : List (String × Nat) :=
  stats.map fun e => if e.1 = c then (e.1, e.2 + 1) else e

/-- The literal (pre-collision-renaming) destination of a source file:
`self.target_dir / category / file_path.name`. -/
def litPath (targetRoot : FPath) (f : FPath) : FPath :=
  (targetRoot ++ [get_file_category (baseName f)]) ++ [baseName f]

/-- The enumeration of `scan_files`: `list(self.source_dir.rglob('*'))` yields
every item under the source root — regular files and directories alike — here
each tagged with the result of its `item.is_file()` check; only the regular
files are collected into `all_files`, in enumeration order. -/
def scan_files (items : List (FPath × Bool)) : List FPath :=
  (items.filter fun it => it.2).map fun it => it.1

/-- The progress events emitted by `scan_files` (that call is guarded by
`if self.progress_callback:`): one call per enumerated item, directories
included, with the item count as the total. -/
def scanEvents (hasCallback : Bool) (items : List (FPath × Bool)) :
    List (Nat × Nat × String) :=
  if hasCallback then
    items.enum.map fun e => (e.1 + 1, items.length, "扫描: " ++ baseName e.2.1)
  else []

/-- One iteration of the `for i, file_path in enumerate(all_files, 1)` body
(after the cancellation check): guarded progress callback, classification,
duplicate check against the literal destination, unique-name resolution, copy,
and statistics.  Every step of the body runs inside `try`, and any raise makes
the `except` branch record the file in `skipped_files`; a raise from
`Path.stat` happens after the copy already landed, so the written file
remains. -/
def processOne (env : IOEnv) (hasCallback : Bool) (targetRoot : FPath)
    (i total : Nat) (file_path : FPath) (s : RunState) : RunState :=
  let ev := if hasCallback then s.events ++ [(i, total, baseName file_path)] else s.events
  let category := get_file_category (baseName file_path)
  let target_category_dir := targetRoot ++ [category]
  let target_file_path := target_category_dir ++ [baseName file_path]
  if is_duplicate_file env s.fs file_path target_file_path then
    { s with skipped := s.skipped ++ [file_path], events := ev }
  else
    let unique_target_path :=
      generate_unique_filename s.fs target_category_dir (baseName file_path)
    if env.copyFails file_path then
      { s with skipped := s.skipped ++ [file_path], events := ev }
    else
      match readFS s.fs file_path with
      | none => { s with skipped := s.skipped ++ [file_path], events := ev }
      | some d =>
        if env.statFails file_path then
          { s with fs := (unique_target_path, d) :: s.fs,
                   skipped := s.skipped ++ [file_path], events := ev }
        else
          { s with fs := (unique_target_path, d) :: s.fs,
                   total_size := s.total_size + d.size,
                   category_stats := bumpStat s.category_stats category,
                   processed := s.processed ++ [unique_target_path],
                   events := ev }

/-- The `for` loop with its cooperative-cancellation check: `flagAt i` tells
whether `self.stop_requested` is already set when iteration `i` begins; when
it is, the loop breaks before processing the current file. -/
def runLoop (env : IOEnv) (hasCallback : Bool) (targetRoot : FPath) (total : Nat)
    (flagAt : Nat → Bool) : Nat → List FPath → RunState → RunState
  | _, [], s => s
  | i, f :: rest, s =>
    if flagAt i then s
    else runLoop env hasCallback targetRoot total flagAt (i + 1) rest
      (processOne env hasCallback targetRoot i total f s)

/-- The outcome of a terminating run: final state plus whether the run ended
through the `if self.stop_requested:` branch (Cancelled) or not (Completed). -/
structure OrgResult where
  state : RunState
  stopped : Bool
deriving DecidableEq, Repr

/-- The state at the start of `organize_files`, after `create_target_directories`
(directories are implicit in this model) and `scan_files` over the enumerated
`items` (which already logged one progress event per item). -/
def initState (hasCallback : Bool) (items : List (FPath × Bool)) (fs0 : FS) : RunState :=
  { fs := fs0, processed := [], skipped := [],
    category_stats := file_categories.map fun ce => (ce.1, 0),
    total_size := 0, events := scanEvents hasCallback items }

/-- `WeChatFileOrganizer.organize_files`.  `items` is the `rglob('*')`
enumeration seen by `scan_files` (every item, tagged by `is_file()`);
`all_files` is the filtered file list the processing loop runs over.
`stopAfter = some n` means `stop_organizing` is called the moment `n` files
have been iterated (so the cancellation check of iteration `i` sees the flag
iff `n < i`, and the flag is set by the end of the loop iff `n ≤ total`).
The two final `self.progress_callback(...)` calls are NOT guarded by
`if self.progress_callback:`, so with no callback they raise `TypeError`,
which escapes `organize_files` — hence the `Except`. -/
def organize_files (env : IOEnv) (hasCallback : Bool) (targetRoot : FPath)
    (items : List (FPath × Bool)) (fs0 : FS) (stopAfter : Option Nat) :
    Except String OrgResult :=
  let all_files := scan_files items
  let s0 := initState hasCallback items fs0
  if all_files.isEmpty then Except.ok { state := s0, stopped := false }
  else
    let total := all_files.length
    let flagAt : Nat → Bool := fun i =>
      match stopAfter with
      | some n => decide (n < i)
      | none => false
    let s := runLoop env hasCallback targetRoot total flagAt 1 all_files s0
    let endStopped : Bool :=
      match stopAfter with
      | some n => decide (n ≤ total)
      | none => false
    if endStopped then
      if hasCallback then
        Except.ok { state := { s with events := s.events ++ [(total, total, "收到停止信号")] },
                    stopped := true }
      else Except.error "TypeError: NoneType object is not callable"
    else
      if hasCallback then
        Except.ok { state := { s with events := s.events ++ [(total, total, "整理完成")] },
                    stopped := false }
      else Except.error "TypeError: NoneType object is not callable"

/-! ## Step lemmas for the processing loop -/

theorem calculate_file_hash_some (env : IOEnv) (fs : FS) (p : FPath) (d : FileData)
    (hre : env.readFails p = false) (h : readFS fs p = some d) :
    calculate_file_hash env fs p = md5 d.content := by
  unfold calculate_file_hash
  rw [if_neg (by simp [hre]), h]

theorem is_duplicate_file_not_exists (env : IOEnv) (fs : FS) (src tgt : FPath)
    (h : pexists fs tgt = false) :
    is_duplicate_file env fs src tgt = false := by
  simp only [is_duplicate_file]
  rw [h]
  simp

theorem is_duplicate_file_true (env : IOEnv) (fs : FS) (src tgt : FPath)
    (d d' : FileData)
    (hre : env.readFails src = false) (hre' : env.readFails tgt = false)
    (h1 : readFS fs src = some d) (h2 : readFS fs tgt = some d')
    (hcc : d'.content = d.content) :
    is_duplicate_file env fs src tgt = true := by
  simp only [is_duplicate_file]
  rw [pexists_of_readFS_some fs tgt d' h2]
  rw [calculate_file_hash_some env fs src d hre h1,
      calculate_file_hash_some env fs tgt d' hre' h2, hcc]
  simp [md5_ne_empty]

theorem litPath_ne (tR : FPath) (a b : FPath) (h : baseName a ≠ baseName b) :
    litPath tR a ≠ litPath tR b := by
  intro he
  unfold litPath at he
  rw [List.append_assoc, List.append_assoc] at he
  have h2 := List.append_cancel_left he
  simp at h2
  exact h h2.2

/-- The duplicate branch of the loop body: only `skipped_files` (and the
event log) change. -/
theorem processOne_dup (env : IOEnv) (hc : Bool) (tR : FPath) (i total : Nat)
    (f : FPath) (s : RunState)
    (h : is_duplicate_file env s.fs f (litPath tR f) = true) :
    processOne env hc tR i total f s =
      { s with skipped := s.skipped ++ [f],
               events := if hc then s.events ++ [(i, total, baseName f)] else s.events } := by
  have h' : is_duplicate_file env s.fs f
      ((tR ++ [get_file_category (baseName f)]) ++ [baseName f]) = true := h
  simp only [processOne, h', if_true]

/-- The clean-copy branch of the loop body: the literal destination is free,
nothing raises, so the file lands at its literal destination and every counter
is updated. -/
theorem processOne_copy (env : IOEnv) (hc : Bool) (tR : FPath) (i total : Nat)
    (f : FPath) (s : RunState) (d : FileData)
    (hfree : pexists s.fs (litPath tR f) = false)
    (hread : readFS s.fs f = some d)
    (hcf : env.copyFails f = false) (hsf : env.statFails f = false) :
    processOne env hc tR i total f s =
      { s with fs := (litPath tR f, d) :: s.fs,
               processed := s.processed ++ [litPath tR f],
               total_size := s.total_size + d.size,
               category_stats := bumpStat s.category_stats (get_file_category (baseName f)),
               events := if hc then s.events ++ [(i, total, baseName f)] else s.events } := by
  have hdup : is_duplicate_file env s.fs f
      ((tR ++ [get_file_category (baseName f)]) ++ [baseName f]) = false :=
    is_duplicate_file_not_exists env s.fs f (litPath tR f) hfree
  have hgen : generate_unique_filename s.fs (tR ++ [get_file_category (baseName f)])
      (baseName f) = litPath tR f :=
    generate_unique_literal s.fs (tR ++ [get_file_category (baseName f)]) (baseName f) hfree
  simp only [processOne, hdup, hgen, hread, hcf, hsf, if_false]
  simp

/-- Whatever branch the body takes, every existing binding survives: the only
write is at a path `generate_unique_filename` certifies to be free. -/
theorem processOne_preserves (env : IOEnv) (hc : Bool) (tR : FPath) (i total : Nat)
    (f : FPath) (s : RunState) (q : FPath) (d : FileData)
    (h : readFS s.fs q = some d) :
    readFS (processOne env hc tR i total f s).fs q = some d := by
  simp only [processOne]
  split
  · exact h
  · split
    · exact h
    · split
      · exact h
      · split
        · exact readFS_fresh_write _ _ _ (generate_unique_free _ _ _) _ _ h
        · exact readFS_fresh_write _ _ _ (generate_unique_free _ _ _) _ _ h

theorem runLoop_preserves (env : IOEnv) (hc : Bool) (tR : FPath) (total : Nat)
    (flagAt : Nat → Bool) :
    ∀ (rest : List FPath) (i : Nat) (s : RunState) (q : FPath) (d : FileData),
      readFS s.fs q = some d →
      readFS (runLoop env hc tR total flagAt i rest s).fs q = some d := by
  intro rest
  induction rest with
  | nil =>
    intro i s q d h
    simpa [runLoop] using h
  | cons f rest ih =>
    intro i s q d h
    simp only [runLoop]
    split
    · exact h
    · exact ih (i + 1) _ q d (processOne_preserves env hc tR i total f s q d h)

/-- Invariant run of the loop in the clean case: no transient failures,
pairwise-distinct basenames, readable sources, free literal destinations.
Every file is copied to its literal destination; nothing is skipped; existing
bindings survive; afterwards each file's literal destination holds exactly the
source's data; and paths that were free and are not literal destinations of
the processed files stay free. -/
theorem runLoop_copies (env : IOEnv) (hc : Bool) (tR : FPath) (total : Nat)
    (hce : ∀ q, env.copyFails q = false)
    (hse : ∀ q, env.statFails q = false) :
    ∀ (rest : List FPath) (i : Nat) (s : RunState),
      (rest.map baseName).Nodup →
      (∀ f ∈ rest, ∃ d, readFS s.fs f = some d) →
      (∀ f ∈ rest, pexists s.fs (litPath tR f) = false) →
      (runLoop env hc tR total (fun _ => false) i rest s).processed =
          s.processed ++ rest.map (litPath tR) ∧
      (runLoop env hc tR total (fun _ => false) i rest s).skipped = s.skipped ∧
      (∀ q d, readFS s.fs q = some d →
        readFS (runLoop env hc tR total (fun _ => false) i rest s).fs q = some d) ∧
      (∀ f ∈ rest, ∃ d,
        readFS (runLoop env hc tR total (fun _ => false) i rest s).fs f = some d ∧
        readFS (runLoop env hc tR total (fun _ => false) i rest s).fs (litPath tR f) =
          some d) ∧
      (∀ q, pexists s.fs q = false → (∀ f ∈ rest, q ≠ litPath tR f) →
        pexists (runLoop env hc tR total (fun _ => false) i rest s).fs q = false) := by
  intro rest
  induction rest with
  | nil =>
    intro i s _ _ _
    refine ⟨by simp [runLoop], by simp [runLoop], ?_, ?_, ?_⟩
    · intro q d h; simpa [runLoop] using h
    · intro f hf; cases hf
    · intro q hq _; simpa [runLoop] using hq
  | cons f rest ih =>
    intro i s hnd hsrc hfree
    obtain ⟨d, hd⟩ := hsrc f (List.mem_cons_self f rest)
    have hfr := hfree f (List.mem_cons_self f rest)
    simp only [List.map_cons] at hnd
    have hbne : ∀ g ∈ rest, baseName g ≠ baseName f := by
      intro g hg he
      exact (List.nodup_cons.mp hnd).1 (by rw [← he]; exact List.mem_map_of_mem baseName hg)
    set s1 : RunState :=
      { s with fs := (litPath tR f, d) :: s.fs,
               processed := s.processed ++ [litPath tR f],
               total_size := s.total_size + d.size,
               category_stats := bumpStat s.category_stats (get_file_category (baseName f)),
               events := if hc then s.events ++ [(i, total, baseName f)] else s.events } with hs1
    have hs1fs : s1.fs = (litPath tR f, d) :: s.fs := by rw [hs1]
    have hs1proc : s1.processed = s.processed ++ [litPath tR f] := by rw [hs1]
    have hs1skip : s1.skipped = s.skipped := by rw [hs1]
    have hrl : runLoop env hc tR total (fun _ => false) i (f :: rest) s =
        runLoop env hc tR total (fun _ => false) (i + 1) rest s1 := by
      simp only [runLoop]
      rw [if_neg (by simp)]
      rw [processOne_copy env hc tR i total f s d hfr hd (hce f) (hse f), ← hs1]
    have hsrc' : ∀ g ∈ rest, ∃ dg, readFS s1.fs g = some dg := by
      intro g hg
      obtain ⟨dg, hdg⟩ := hsrc g (List.mem_cons_of_mem f hg)
      exact ⟨dg, by rw [hs1fs]; exact readFS_fresh_write _ _ _ hfr _ _ hdg⟩
    have hfree' : ∀ g ∈ rest, pexists s1.fs (litPath tR g) = false := by
      intro g hg
      rw [hs1fs, pexists_fresh_write _ _ _ _ (litPath_ne tR f g fun he => hbne g hg he.symm)]
      exact hfree g (List.mem_cons_of_mem f hg)
    obtain ⟨ih1, ih2, ih3, ih4, ih5⟩ :=
      ih (i + 1) s1 (List.nodup_cons.mp hnd).2 hsrc' hfree'
    rw [hrl]
    refine ⟨?_, ?_, ?_, ?_, ?_⟩
    · rw [ih1, hs1proc, List.map_cons, List.append_assoc]
      rfl
    · rw [ih2, hs1skip]
    · intro q dq hq
      exact ih3 q dq (by rw [hs1fs]; exact readFS_fresh_write _ _ _ hfr _ _ hq)
    · intro g hg
      rcases List.mem_cons.mp hg with rfl | hg'
      · have hdf : readFS s1.fs g = some d := by
          rw [hs1fs]; exact readFS_fresh_write _ _ _ hfr _ _ hd
        have hdl : readFS s1.fs (litPath tR g) = some d := by
          rw [hs1fs]; simp [readFS]
        exact ⟨d, ih3 g d hdf, ih3 _ d hdl⟩
      · exact ih4 g hg'
    · intro q hq hql
      apply ih5 q
      · rw [hs1fs, pexists_fresh_write _ _ _ _
          fun he => hql f (List.mem_cons_self f rest) he.symm]
        exact hq
      · intro g hg'
        exact hql g (List.mem_cons_of_mem f hg')

/-- Run of the loop in which every file is detected as a duplicate of its
literal destination: the filesystem and the processed list do not change, and
every file ends up in `skipped_files`. -/
theorem runLoop_dups (env : IOEnv) (hc : Bool) (tR : FPath) (total : Nat)
    (hre : ∀ q, env.readFails q = false) :
    ∀ (rest : List FPath) (i : Nat) (s : RunState),
      (∀ f ∈ rest, ∃ d d', readFS s.fs f = some d ∧
        readFS s.fs (litPath tR f) = some d' ∧ d'.content = d.content) →
      (runLoop env hc tR total (fun _ => false) i rest s).fs = s.fs ∧
      (runLoop env hc tR total (fun _ => false) i rest s).processed = s.processed ∧
      (runLoop env hc tR total (fun _ => false) i rest s).skipped = s.skipped ++ rest := by
  intro rest
  induction rest with
  | nil =>
    intro i s _
    refine ⟨by simp [runLoop], by simp [runLoop], by simp [runLoop]⟩
  | cons f rest ih =>
    intro i s hdup
    obtain ⟨d, d', hd, hdl, hcc⟩ := hdup f (List.mem_cons_self f rest)
    have hdupb : is_duplicate_file env s.fs f (litPath tR f) = true :=
      is_duplicate_file_true env s.fs f (litPath tR f) d d' (hre f) (hre _) hd hdl hcc
    set s1 : RunState :=
      { s with skipped := s.skipped ++ [f],
               events := if hc then s.events ++ [(i, total, baseName f)] else s.events }
      with hs1
    have hs1fs : s1.fs = s.fs := by rw [hs1]
    have hs1proc : s1.processed = s.processed := by rw [hs1]
    have hs1skip : s1.skipped = s.skipped ++ [f] := by rw [hs1]
    have hrl : runLoop env hc tR total (fun _ => false) i (f :: rest) s =
        runLoop env hc tR total (fun _ => false) (i + 1) rest s1 := by
      simp only [runLoop]
      rw [if_neg (by simp)]
      rw [processOne_dup env hc tR i total f s hdupb, ← hs1]
    obtain ⟨ih1, ih2, ih3⟩ := ih (i + 1) s1 (by
      intro g hg
      obtain ⟨dg, dg', h1, h2, h3⟩ := hdup g (List.mem_cons_of_mem f hg)
      exact ⟨dg, dg', by rw [hs1fs]; exact h1, by rw [hs1fs]; exact h2, h3⟩)
    rw [hrl]
    refine ⟨by rw [ih1, hs1fs], by rw [ih2, hs1proc], ?_⟩
    rw [ih3, hs1skip, List.append_assoc]
    rfl

/-- The loop with the cancellation flag set after `N` iterations runs exactly
like the unflagged loop on the first `N + 1 - i` remaining files. -/
theorem runLoop_flagN (env : IOEnv) (hc : Bool) (tR : FPath) (total N : Nat) :
    ∀ (rest : List FPath) (i : Nat) (s : RunState),
      runLoop env hc tR total (fun k => decide (N < k)) i rest s =
        runLoop env hc tR total (fun _ => false) i (rest.take (N + 1 - i)) s := by
  intro rest
  induction rest with
  | nil => intro i s; simp [runLoop]
  | cons f rest ih =>
    intro i s
    by_cases h : N < i
    · have ht : N + 1 - i = 0 := by omega
      rw [ht, List.take_zero]
      simp [runLoop, h]
    · have ht : N + 1 - i = (N - i) + 1 := by omega
      rw [ht, List.take_succ_cons]
      simp only [runLoop]
      rw [if_neg (by simp [h]), if_neg (by simp)]
      rw [ih (i + 1)]
      have hni : N + 1 - (i + 1) = N - i := by omega
      rw [hni]

/-! ## Unfolding `organize_files` by terminal branch -/

theorem organize_files_run_none (env : IOEnv) (tR : FPath)
    (items : List (FPath × Bool)) (files : List FPath) (fs0 : FS)
    (hscan : scan_files items = files) (hne : files ≠ []) :
    organize_files env true tR items fs0 none =
      Except.ok
        { state :=
            { runLoop env true tR files.length (fun _ => false) 1 files
                (initState true items fs0) with
              events :=
                (runLoop env true tR files.length (fun _ => false) 1 files
                    (initState true items fs0)).events ++
                  [(files.length, files.length, "整理完成")] },
          stopped := false } := by
  have hie : files.isEmpty = false := by
    cases files
    · exact absurd rfl hne
    · rfl
  simp [organize_files, hscan, hie]

theorem organize_files_run_stop (env : IOEnv) (tR : FPath)
    (items : List (FPath × Bool)) (files : List FPath) (fs0 : FS) (N : Nat)
    (hscan : scan_files items = files) (hne : files ≠ [])
    (hN : N ≤ files.length) :
    organize_files env true tR items fs0 (some N) =
      Except.ok
        { state :=
            { runLoop env true tR files.length (fun k => decide (N < k)) 1 files
                (initState true items fs0) with
              events :=
                (runLoop env true tR files.length (fun k => decide (N < k)) 1 files
                    (initState true items fs0)).events ++
                  [(files.length, files.length, "收到停止信号")] },
          stopped := true } := by
  have hie : files.isEmpty = false := by
    cases files
    · exact absurd rfl hne
    · rfl
  simp [organize_files, hscan, hie, hN]

theorem organize_files_no_callback (env : IOEnv) (tR : FPath)
    (items : List (FPath × Bool)) (fs0 : FS) (stopAfter : Option Nat)
    (hne : scan_files items ≠ []) :
    organize_files env false tR items fs0 stopAfter =
      Except.error "TypeError: NoneType object is not callable" := by
  have hie : (scan_files items).isEmpty = false := by
    cases h : scan_files items with
    | nil => exact absurd h hne
    | cons a l => rfl
  simp only [organize_files, hie]
  cases stopAfter with
  | none => simp
  | some n =>
    by_cases h : n ≤ (scan_files items).length
    · simp [h]
    · simp [h]

/-- The `if not all_files:` early return: when the scan yields zero regular
files (whatever directory items it walked and reported), the run ends
immediately — empty lists, no statistics, and no progress event beyond the
per-item scanning calls (in particular no final `current == total` call). -/
theorem organize_files_empty_run (env : IOEnv) (hc : Bool) (tR : FPath)
    (items : List (FPath × Bool)) (fs0 : FS) (stopAfter : Option Nat)
    (hempty : scan_files items = []) :
    organize_files env hc tR items fs0 stopAfter =
      Except.ok { state := initState hc items fs0, stopped := false } := by
  have hie : (scan_files items).isEmpty = true := by rw [hempty]; rfl
  simp [organize_files, hie]

/-! ## Claims -/

/-- **C8.** Classification is total and never fails: a file whose lower-cased
`Path.suffix` appears in the classification table is classified into the
owning category, and any other file (including extensionless ones) is
classified into the fallback `其他`. -/
theorem claim_C8_classification_total (name : String) :
    (∀ ce ∈ file_categories, lowerStr (pySuffix name) ∈ ce.2 →
      get_file_category name = ce.1) ∧
    ((∀ ce ∈ file_categories, lowerStr (pySuffix name) ∉ ce.2) →
      get_file_category name = "其他") := by
  constructor
  · intro ce hce hmem
    have hall : ∀ ce' ∈ file_categories, ∀ s ∈ ce'.2,
        lookupCat file_categories s = ce'.1 := by decide
    exact hall ce hce _ hmem
  · intro hnone
    exact lookupCat_not_mem file_categories _ hnone

theorem claim_C8_witness :
    get_file_category "photo.JPG" = "图片" ∧ get_file_category "noext" = "其他" :=
  ⟨(claim_C8_classification_total "photo.JPG").1
      ("图片", [".jpg", ".jpeg", ".png", ".gif", ".bmp", ".webp", ".svg", ".ico", ".tiff"])
      (by decide) (by decide),
   (claim_C8_classification_total "noext").2 (by decide)⟩

/-- **C6.** A hashing failure on either side (an empty digest) forces
`is_duplicate_file` to `false`: the file proceeds to copy, and in particular
two empty digests are never treated as matching. -/
theorem claim_C6_hash_failure_not_duplicate (env : IOEnv) (fs : FS)
    (src tgt : FPath)
    (h : calculate_file_hash env fs src = "" ∨ calculate_file_hash env fs tgt = "") :
    is_duplicate_file env fs src tgt = false := by
  simp only [is_duplicate_file]
  by_cases hp : pexists fs tgt = false
  · rw [if_pos hp]
  · rw [if_neg hp]
    rcases h with h | h
    · rw [h]
      simp
    · rw [h]
      simp only [ne_eq, decide_eq_false_iff_not]
      rintro ⟨a, b⟩
      exact b a

theorem claim_C6_witness :
    is_duplicate_file ⟨fun _ => true, fun _ => false, fun _ => false⟩
      [(["t", "文档", "a.txt"], ⟨1, 1⟩)] ["s", "a.txt"] ["t", "文档", "a.txt"] =
      false :=
  claim_C6_hash_failure_not_duplicate _ _ _ _ (Or.inl rfl)

/-- **C3 (counterexample).** `format_size 0` is the special-cased `"0 B"`,
not the `"0.00 B"` the claim states. -/
theorem claim_C3_counterexample :
    format_size 0 = "0 B" ∧ format_size 0 ≠ "0.00 B" := by
  constructor
  · rfl
  · decide

/-- **C3 (amended).** `format_size` maps 0 to the special-cased `"0 B"`,
1536 to `"1.50 KB"` and `2^30` to `"1.00 GB"`; for every nonzero size the
unit index `i` divides by 1024 while the magnitude stays at least 1024 and
the unit list is not exhausted (`1024^i ≤ n`, and `n < 1024^(i+1)` unless
`i = 4`), and the rendered number is the two-decimal round-half-even of
`n / 1024^i` (stated in cleared form). -/
theorem claim_C3_format_size (n : Nat) (h : 0 < n) :
    format_size 0 = "0 B" ∧ format_size 1536 = "1.50 KB" ∧
    format_size 1073741824 = "1.00 GB" ∧
    format_size n =
      format2c (round2c n (scaleLoop n 0 4)) ++ " " ++
        size_names.getD (scaleLoop n 0 4) "" ∧
    scaleLoop n 0 4 ≤ 4 ∧
    1024 ^ scaleLoop n 0 4 ≤ n ∧
    (n < 1024 ^ (scaleLoop n 0 4 + 1) ∨ scaleLoop n 0 4 = 4) ∧
    2 * round2c n (scaleLoop n 0 4) * 1024 ^ scaleLoop n 0 4 ≤
      200 * n + 1024 ^ scaleLoop n 0 4 ∧
    200 * n ≤ 2 * round2c n (scaleLoop n 0 4) * 1024 ^ scaleLoop n 0 4 +
      1024 ^ scaleLoop n 0 4 := by
  have hs := scaleLoop_spec n 4 0 (by simpa using h)
  have hr := round2c_half n (scaleLoop n 0 4)
  refine ⟨rfl, by decide, by decide, ?_, by omega, hs.2.2.1, ?_, hr.1, hr.2⟩
  · unfold format_size
    rw [if_neg (by omega)]
  · rcases hs.2.2.2 with h1 | h1
    · exact Or.inl h1
    · exact Or.inr (by omega)

theorem claim_C3_witness :
    format_size 1536 =
      format2c (round2c 1536 (scaleLoop 1536 0 4)) ++ " " ++
        size_names.getD (scaleLoop 1536 0 4) "" :=
  (claim_C3_format_size 1536 (by decide)).2.2.2.1

/-- **C2 (counterexample).** On a genuinely empty source tree (no items at
all, progress callback present), `organize_files` returns without emitting a
single progress event — in particular there is no final `current == total`
call with a terminal label, and no statistics report is produced. -/
theorem claim_C2_counterexample :
    (organize_files ⟨fun _ => false, fun _ => false, fun _ => false⟩ true ["t"]
        [] [] none).map (fun r => r.state.events.getLast?) =
      Except.ok none := by
  rfl

/-- **C2 (amended).** When the scanner enumerates zero regular files — even
if `rglob` walked directory items, each of which is reported through the
scanning progress callback — `organize_files` returns immediately after the
scan: empty processed and skipped lists, zero total size, no statistics
report, and no progress-callback call beyond the per-item scanning calls:
the final event log is exactly `scanEvents`, every entry of which carries a
`扫描:` scanning label, so no final call with `current == total` and a
terminal-state label ever happens. -/
theorem claim_C2_empty_scan (env : IOEnv) (hc : Bool) (tR : FPath)
    (items : List (FPath × Bool)) (fs0 : FS) (stopAfter : Option Nat)
    (hempty : scan_files items = []) :
    organize_files env hc tR items fs0 stopAfter =
      Except.ok
        { state := { fs := fs0, processed := [], skipped := [],
                     category_stats := file_categories.map fun ce => (ce.1, 0),
                     total_size := 0, events := scanEvents hc items },
          stopped := false } ∧
    ∀ e ∈ scanEvents hc items, ∃ s, e.2.2 = "扫描: " ++ s := by
  constructor
  · exact organize_files_empty_run env hc tR items fs0 stopAfter hempty
  · intro e he
    simp only [scanEvents] at he
    split at he
    · obtain ⟨a, hmem, rfl⟩ := List.mem_map.mp he
      exact ⟨baseName a.2.1, rfl⟩
    · cases he

theorem claim_C2_witness :
    organize_files ⟨fun _ => false, fun _ => false, fun _ => false⟩ true ["t"]
        [(["s", "sub"], false)] [] none =
      Except.ok
        { state := { fs := [], processed := [], skipped := [],
                     category_stats := file_categories.map fun ce => (ce.1, 0),
                     total_size := 0,
                     events := scanEvents true [(["s", "sub"], false)] },
          stopped := false } ∧
    ∀ e ∈ scanEvents true [(["s", "sub"], false)], ∃ s, e.2.2 = "扫描: " ++ s :=
  claim_C2_empty_scan ⟨fun _ => false, fun _ => false, fun _ => false⟩ true ["t"]
    [(["s", "sub"], false)] [] none (by decide)

/-- **C4.** The failing input for the unguarded final callback: an engine
constructed without a progress callback, run on a source with one file,
raises `TypeError` at `self.progress_callback(self.total_files, ...)` —
`organize_files` does not complete normally. -/
theorem claim_C4_no_callback_raises :
    organize_files ⟨fun _ => false, fun _ => false, fun _ => false⟩ false ["t"]
      [(["s", "a.txt"], true)] [(["s", "a.txt"], ⟨1, 1⟩)] none =
      Except.error "TypeError: NoneType object is not callable" :=
  organize_files_no_callback _ _ _ _ _ (by decide)

/-- **C10.** A post-copy failure (here: `Path.stat` raising while reading the
size) records the file as skipped even though its copy already landed in the
target: the skipped list holds the file, the processed list is empty, the
copied bytes are counted neither in `total_size` nor in any category counter,
and the destination file exists with the source's data. -/
theorem claim_C10_skipped_with_copy_landed :
    (organize_files
        ⟨fun _ => false, fun _ => false, fun p => decide (p = ["s", "a.txt"])⟩
        true ["t"] [(["s", "a.txt"], true)] [(["s", "a.txt"], ⟨7, 5⟩)] none).map
      (fun r => (r.state.skipped, r.state.processed, r.state.total_size,
                 r.state.category_stats, readFS r.state.fs ["t", "文档", "a.txt"])) =
      Except.ok ([["s", "a.txt"]], [], 0,
        file_categories.map (fun ce => (ce.1, 0)), some ⟨7, 5⟩) := by
  rfl

/-- **C7 (counterexample).** For the trailing-dot name `"a."` (whose Python
suffix is empty) the generated collision name `"a._1"` has Python suffix
`"._1"`: the first-free-slot result holds, but the file's extension is not
preserved. -/
theorem claim_C7_counterexample :
    generate_unique_filename [(["t", "a."], ⟨1, 1⟩)] ["t"] "a." = ["t", "a._1"] ∧
    pySuffix "a." = "" ∧ pySuffix "a._1" = "._1" := by
  refine ⟨?_, by decide, by decide⟩
  rfl

/-- **C7 (amended).** `generate_unique_filename` returns the literal desired
path when it is free, and otherwise the path `stem_n + suffix` for the
smallest counter `n ≥ 1` whose slot is free; the returned path never already
exists; and — provided the desired name has a proper extension or no internal
dot (trailing-dot names like `"a."` excepted) — the generated name keeps the
original extension. -/
theorem claim_C7_generate_unique (fs : FS) (dir : FPath) (filename : String)
    (hprov : pySuffix filename ≠ "" ∨ ∀ i, lastDotIdx filename.data = some i → i = 0) :
    (pexists fs (dir ++ [filename]) = false →
      generate_unique_filename fs dir filename = dir ++ [filename]) ∧
    pexists fs (generate_unique_filename fs dir filename) = false ∧
    (pexists fs (dir ++ [filename]) = true →
      ∃ n, 1 ≤ n ∧
        generate_unique_filename fs dir filename =
          dir ++ [pyStem filename ++ "_" ++ natStr n ++ pySuffix filename] ∧
        pySuffix (pyStem filename ++ "_" ++ natStr n ++ pySuffix filename) =
          pySuffix filename ∧
        ∀ m, 1 ≤ m → m < n →
          pexists fs (dir ++ [pyStem filename ++ "_" ++ natStr m ++ pySuffix filename]) =
            true) := by
  refine ⟨generate_unique_literal fs dir filename, generate_unique_free fs dir filename, ?_⟩
  intro hocc
  obtain ⟨j, h1, h2, h3⟩ := generate_unique_spec fs dir filename
  have hj0 : j ≠ 0 := by
    intro h
    subst h
    simp only [streamC] at h2
    rw [hocc] at h2
    cases h2
  obtain ⟨j', rfl⟩ : ∃ j', j = j' + 1 := ⟨j - 1, by omega⟩
  refine ⟨1 + j', by omega, ?_, pySuffix_candidate filename (1 + j') hprov, ?_⟩
  · rw [h1]
    rfl
  · intro m hm1 hmn
    obtain ⟨m', rfl⟩ : ∃ m', m = m' + 1 := ⟨m - 1, by omega⟩
    have h4 := h3 (m' + 1) (by omega)
    simp only [streamC] at h4
    have hmm : 1 + m' = m' + 1 := by omega
    rw [hmm] at h4
    exact h4

theorem claim_C7_witness :
    generate_unique_filename [] ["t", "文档"] "a.txt" = ["t", "文档"] ++ ["a.txt"] :=
  (claim_C7_generate_unique [] ["t", "文档"] "a.txt" (Or.inl (by decide))).1 (by decide)

/-- Any successful run preserves every binding of the initial filesystem:
the engine only ever writes at paths certified free, and never removes. -/
theorem organize_ok_preserves (env : IOEnv) (hc : Bool) (tR : FPath)
    (items : List (FPath × Bool)) (fs0 : FS) (stopAfter : Option Nat) (r : OrgResult)
    (hr : organize_files env hc tR items fs0 stopAfter = Except.ok r)
    (p : FPath) (d : FileData) (hd : readFS fs0 p = some d) :
    readFS r.state.fs p = some d := by
  by_cases hne : scan_files items = []
  · rw [organize_files_empty_run env hc tR items fs0 stopAfter hne] at hr
    injection hr with hr
    rw [← hr]
    exact hd
  · have hie : (scan_files items).isEmpty = false := by
      cases h : scan_files items with
      | nil => exact absurd h hne
      | cons a l => rfl
    simp only [organize_files, hie] at hr
    rw [if_neg (by simp)] at hr
    split at hr
    · split at hr
      · injection hr with hr
        rw [← hr]
        exact runLoop_preserves env hc tR (scan_files items).length _
          (scan_files items) 1 (initState hc items fs0) p d hd
      · exact Except.noConfusion hr
    · split at hr
      · injection hr with hr
        rw [← hr]
        exact runLoop_preserves env hc tR (scan_files items).length _
          (scan_files items) 1 (initState hc items fs0) p d hd
      · exact Except.noConfusion hr

/-- **C9.** The operation is copy-only: in every terminal state (Completed or
Cancelled), every file below the source root that existed when the run started
is still present with unchanged data after `organize_files` returns. -/
theorem claim_C9_copy_only (env : IOEnv) (hc : Bool) (sourceRoot tR : FPath)
    (items : List (FPath × Bool)) (fs0 : FS) (stopAfter : Option Nat) (r : OrgResult)
    (hr : organize_files env hc tR items fs0 stopAfter = Except.ok r)
    (p : FPath) (_hsub : ∃ rest, p = sourceRoot ++ rest) (d : FileData)
    (hd : readFS fs0 p = some d) :
    readFS r.state.fs p = some d :=
  organize_ok_preserves env hc tR items fs0 stopAfter r hr p d hd

theorem claim_C9_witness :
    ∃ r, organize_files ⟨fun _ => false, fun _ => false, fun _ => false⟩ true ["t"]
        [(["s", "a.txt"], true)] [(["s", "a.txt"], ⟨3, 4⟩)] none = Except.ok r ∧
      readFS r.state.fs ["s", "a.txt"] = some ⟨3, 4⟩ := by
  refine ⟨_, rfl, ?_⟩
  refine claim_C9_copy_only ⟨fun _ => false, fun _ => false, fun _ => false⟩ true
      ["s"] ["t"] [(["s", "a.txt"], true)] [(["s", "a.txt"], ⟨3, 4⟩)] none _ ?_
      ["s", "a.txt"] ⟨["a.txt"], rfl⟩ ⟨3, 4⟩ ?_
  · rfl
  · rfl

/-- **C1 (counterexample).** Two distinct-content source files both named
`a.txt`: run 1 copies them to `文档/a.txt` and `文档/a_1.txt` (processed
count 2).  On run 2 only the first is detected as a duplicate of the literal
slot; the second is re-copied as `文档/a_2.txt` — so run 2 skips 1 ≠ 2 files
and writes a new destination file. -/
theorem claim_C1_counterexample :
    ((organize_files ⟨fun _ => false, fun _ => false, fun _ => false⟩ true ["t"]
        [(["s", "d1", "a.txt"], true), (["s", "d2", "a.txt"], true)]
        [(["s", "d1", "a.txt"], ⟨1, 4⟩), (["s", "d2", "a.txt"], ⟨2, 4⟩)] none).bind
      fun r1 =>
        (organize_files ⟨fun _ => false, fun _ => false, fun _ => false⟩ true ["t"]
            [(["s", "d1", "a.txt"], true), (["s", "d2", "a.txt"], true)]
            r1.state.fs none).map
          fun r2 => (r1.state.processed.length, r2.state.skipped.length,
                     r2.state.processed)) =
      Except.ok (2, 1, [["t", "文档", "a_2.txt"]]) := by
  rfl

/-- **C1 (amended).** When every source file's literal destination slot is
initially free (no name collisions within the run), basenames are pairwise
distinct, sources are readable and no per-file I/O error occurs, run 1 copies
every file (to its literal slot) and skips none, and run 2 detects every file
as a duplicate: run 2's skipped count equals run 1's processed count, run 2
processes nothing, and run 2 writes no new destination file. -/
theorem claim_C1_idempotent_no_collisions (env : IOEnv) (tR : FPath)
    (items : List (FPath × Bool)) (files : List FPath) (fs0 : FS)
    (hscan : scan_files items = files)
    (hre : ∀ q, env.readFails q = false) (hce : ∀ q, env.copyFails q = false)
    (hse : ∀ q, env.statFails q = false)
    (hnd : (files.map baseName).Nodup)
    (hsrc : ∀ f ∈ files, ∃ d, readFS fs0 f = some d)
    (hfree : ∀ f ∈ files, pexists fs0 (litPath tR f) = false) :
    ∃ r1 r2,
      organize_files env true tR items fs0 none = Except.ok r1 ∧
      r1.state.processed.length = files.length ∧
      r1.state.skipped = [] ∧
      organize_files env true tR items r1.state.fs none = Except.ok r2 ∧
      r2.state.skipped.length = r1.state.processed.length ∧
      r2.state.processed = [] ∧
      r2.state.fs = r1.state.fs := by
  by_cases hne : files = []
  · subst hne
    exact ⟨_, _, organize_files_empty_run env true tR items fs0 none hscan, rfl, rfl,
      organize_files_empty_run env true tR items fs0 none hscan, rfl, rfl, rfl⟩
  · obtain ⟨c1, c2, c3, c4, c5⟩ := runLoop_copies env true tR files.length hce hse
      files 1 (initState true items fs0) hnd hsrc hfree
    set X := runLoop env true tR files.length (fun _ => false) 1 files
      (initState true items fs0) with hX
    have hXp : X.processed = files.map (litPath tR) := by
      rw [c1]; simp [initState]
    have hXs : X.skipped = [] := by
      rw [c2]; simp [initState]
    have hdups : ∀ f ∈ files, ∃ d d',
        readFS (initState true items X.fs).fs f = some d ∧
        readFS (initState true items X.fs).fs (litPath tR f) = some d' ∧
        d'.content = d.content := by
      intro f hf
      obtain ⟨d, h1, h2⟩ := c4 f hf
      exact ⟨d, d, h1, h2, rfl⟩
    obtain ⟨d1, d2, d3⟩ := runLoop_dups env true tR files.length hre files 1
      (initState true items X.fs) hdups
    set Y := runLoop env true tR files.length (fun _ => false) 1 files
      (initState true items X.fs) with hY
    have hYs : Y.skipped = files := by
      rw [d3]; simp [initState]
    have hYp : Y.processed = [] := by
      rw [d2]; simp [initState]
    have hYf : Y.fs = X.fs := by
      rw [d1]; simp [initState]
    refine ⟨_, _, organize_files_run_none env tR items files fs0 hscan hne, ?_, ?_,
      organize_files_run_none env tR items files X.fs hscan hne, ?_, ?_, ?_⟩
    · show X.processed.length = files.length
      rw [hXp, List.length_map]
    · show X.skipped = []
      exact hXs
    · show Y.skipped.length = X.processed.length
      rw [hYs, hXp, List.length_map]
    · show Y.processed = []
      exact hYp
    · show Y.fs = X.fs
      exact hYf

theorem claim_C1_witness :
    ∃ r1 r2,
      organize_files ⟨fun _ => false, fun _ => false, fun _ => false⟩ true ["t"]
          [(["s", "a.txt"], true)] [(["s", "a.txt"], ⟨1, 2⟩)] none = Except.ok r1 ∧
      r1.state.processed.length = [["s", "a.txt"]].length ∧
      r1.state.skipped = [] ∧
      organize_files ⟨fun _ => false, fun _ => false, fun _ => false⟩ true ["t"]
          [(["s", "a.txt"], true)] r1.state.fs none = Except.ok r2 ∧
      r2.state.skipped.length = r1.state.processed.length ∧
      r2.state.processed = [] ∧
      r2.state.fs = r1.state.fs :=
  claim_C1_idempotent_no_collisions ⟨fun _ => false, fun _ => false, fun _ => false⟩
    ["t"] [(["s", "a.txt"], true)] [["s", "a.txt"]] [(["s", "a.txt"], ⟨1, 2⟩)]
    (by decide) (fun _ => rfl) (fun _ => rfl) (fun _ => rfl) (by decide)
    (by
      intro f hf
      simp only [List.mem_singleton] at hf
      subst hf
      exact ⟨⟨1, 2⟩, rfl⟩)
    (by decide)

/-- **C5.** Cooperative cancellation, polled once per file before it is
processed: if the stop flag becomes set after `N` of `M` enumerated files have
been processed (clean run: distinct basenames, readable sources, free literal
slots, no per-file errors), the run ends in the Cancelled terminal state with
exactly the first `N` files' destinations in the processed list, no file
skipped, no destination written for any file beyond `N`, and a final progress
callback `(M, M)` carrying the stop label. -/
theorem claim_C5_cancellation (env : IOEnv) (tR : FPath)
    (items : List (FPath × Bool)) (files : List FPath) (fs0 : FS) (N : Nat)
    (hscan : scan_files items = files)
    (_hre : ∀ q, env.readFails q = false) (hce : ∀ q, env.copyFails q = false)
    (hse : ∀ q, env.statFails q = false)
    (hnd : (files.map baseName).Nodup)
    (hsrc : ∀ f ∈ files, ∃ d, readFS fs0 f = some d)
    (hfree : ∀ f ∈ files, pexists fs0 (litPath tR f) = false)
    (hne : files ≠ []) (hN : N ≤ files.length) :
    ∃ r,
      organize_files env true tR items fs0 (some N) = Except.ok r ∧
      r.stopped = true ∧
      r.state.processed = (files.take N).map (litPath tR) ∧
      r.state.skipped = [] ∧
      (∀ f ∈ files.drop N, pexists r.state.fs (litPath tR f) = false) ∧
      r.state.events.getLast? =
        some (files.length, files.length, "收到停止信号") := by
  have hsplit := runLoop_flagN env true tR files.length N files 1
    (initState true items fs0)
  have hN1 : N + 1 - 1 = N := by omega
  rw [hN1] at hsplit
  have hsub : files.take N ⊆ files := List.take_subset N files
  have hndT : ((files.take N).map baseName).Nodup := by
    rw [List.map_take]
    exact (List.take_sublist N (files.map baseName)).nodup hnd
  have hsrcT : ∀ f ∈ files.take N, ∃ d, readFS (initState true items fs0).fs f = some d :=
    fun f hf => hsrc f (hsub hf)
  have hfreeT : ∀ f ∈ files.take N,
      pexists (initState true items fs0).fs (litPath tR f) = false :=
    fun f hf => hfree f (hsub hf)
  obtain ⟨c1, c2, c3, c4, c5⟩ := runLoop_copies env true tR files.length hce hse
    (files.take N) 1 (initState true items fs0) hndT hsrcT hfreeT
  have hmapsplit : files.map baseName =
      (files.take N).map baseName ++ (files.drop N).map baseName := by
    rw [← List.map_append, List.take_append_drop]
  rw [hmapsplit] at hnd
  have hdisj := (List.nodup_append.mp hnd).2.2
  refine ⟨_, organize_files_run_stop env tR items files fs0 N hscan hne hN, rfl,
    ?_, ?_, ?_, ?_⟩
  · show (runLoop env true tR files.length (fun k => decide (N < k)) 1 files
      (initState true items fs0)).processed = (files.take N).map (litPath tR)
    rw [hsplit, c1]
    simp [initState]
  · show (runLoop env true tR files.length (fun k => decide (N < k)) 1 files
      (initState true items fs0)).skipped = []
    rw [hsplit, c2]
    simp [initState]
  · intro f hf
    show pexists (runLoop env true tR files.length (fun k => decide (N < k)) 1 files
      (initState true items fs0)).fs (litPath tR f) = false
    rw [hsplit]
    apply c5
    · exact hfree f (List.drop_subset N files hf)
    · intro g hg he
      have hbeq : baseName f = baseName g := by
        by_contra hne'
        exact litPath_ne tR f g hne' he
      exact hdisj (List.mem_map_of_mem baseName hg)
        (by rw [← hbeq]; exact List.mem_map_of_mem baseName hf)
  · show ((runLoop env true tR files.length (fun k => decide (N < k)) 1 files
        (initState true items fs0)).events ++
      [(files.length, files.length, "收到停止信号")]).getLast? =
      some (files.length, files.length, "收到停止信号")
    exact List.getLast?_concat _

theorem claim_C5_witness :
    ∃ r,
      organize_files ⟨fun _ => false, fun _ => false, fun _ => false⟩ true ["t"]
          [(["s", "a.txt"], true), (["s", "b.txt"], true)]
          [(["s", "a.txt"], ⟨1, 1⟩), (["s", "b.txt"], ⟨2, 1⟩)] (some 1) =
        Except.ok r ∧
      r.stopped = true ∧
      r.state.processed =
        ([["s", "a.txt"], ["s", "b.txt"]].take 1).map (litPath ["t"]) ∧
      r.state.skipped = [] ∧
      (∀ f ∈ [["s", "a.txt"], ["s", "b.txt"]].drop 1,
        pexists r.state.fs (litPath ["t"] f) = false) ∧
      r.state.events.getLast? = some (2, 2, "收到停止信号") :=
  claim_C5_cancellation ⟨fun _ => false, fun _ => false, fun _ => false⟩ ["t"]
    [(["s", "a.txt"], true), (["s", "b.txt"], true)]
    [["s", "a.txt"], ["s", "b.txt"]]
    [(["s", "a.txt"], ⟨1, 1⟩), (["s", "b.txt"], ⟨2, 1⟩)] 1
    (by decide) (fun _ => rfl) (fun _ => rfl) (fun _ => rfl) (by decide)
    (by
      intro f hf
      rcases List.mem_cons.mp hf with rfl | hf'
      · exact ⟨⟨1, 1⟩, rfl⟩
      · rcases List.mem_singleton.mp hf' with rfl
        exact ⟨⟨2, 1⟩, rfl⟩)
    (by decide) (by decide) (by decide)
